import Mathlib

/-!
Shallow embedding of the pymor morphological-lexicon core
(`src/pymor/obj.py`: `Entry`, `Model`; `src/pymor.py`: `Entry`, `Dictionary`).

Modelling conventions:
* Python `str` surface forms are modelled as `List Char` (`Str`): Python
  strings are finite character sequences, and slicing `req[len(prefix):]`
  becomes `List.drop`.
* A Python `set` of entries is modelled as a `List Entry` built only through
  `ESet.addE` (add if absent), mirroring `set.add`; iteration order of a
  Python set is arbitrary, so any fixed order is a sound determinization,
  and all set-level claims are stated through `List.toFinset`.
* `pygtrie.CharTrie` is a finite map from strings to values supporting
  `prefixes`; it is modelled as an association list `Trie` with at most one
  binding per key (all binding-producing operations preserve this), where
  `prefixes(req)` is the sublist of bindings whose key is a string prefix
  of `req`.  `len(trie)` is the number of bindings, and a key whose value
  is an (empty) set still has a binding, exactly as in pygtrie after
  `discard` empties a set.
* `Entry.feat` is a Python `frozenset` of `(str, value)` pairs; it is
  modelled as a `Finset (Str × Str)` (feature values, `typing.Any` in the
  source, are modelled as strings as well) so that Lean equality of
  entries coincides with Python structural equality (order-independent in
  `feat`).
-/

set_option autoImplicit false
set_option linter.unusedVariables false

/-- A Python string, as a sequence of characters. -/
abbrev Str := List Char

/-- `Entry` of `src/pymor/obj.py` (and the structurally identical `Entry` of
`src/pymor.py`): an immutable record of `phon`, `feat`, `sem`, `gloss`,
with structural equality over all four fields. -/
structure Entry where
  phon : Str
  feat : Finset (Str × Str) := ∅
  sem : String := ""
  gloss : String := ""
deriving DecidableEq

/-- A Python `set` of entries, determinized as a duplicate-free list. -/
abbrev ESet := List Entry

/-- `set.add`: insert an entry into an entry set if it is not yet present. -/
def ESet.addE (s : ESet) (e : Entry) : ESet :=
  if e ∈ s then s else s ++ [e]

/-- `set.discard`: remove an entry from an entry set if present
(`List.erase` removes the one occurrence a set-built list can hold). -/
def ESet.discard (s : ESet) (e : Entry) : ESet :=
  s.erase e

/-- A Python runtime error. -/
inductive PyErr where
  /-- `AttributeError`: attribute access on an object lacking it
  (e.g. `set.phon`). -/
  | attributeError
  /-- `TypeError`: e.g. iterating a non-iterable object. -/
  | typeError
deriving DecidableEq

/-- The backing `pygtrie.CharTrie`: a finite map from surface strings to
entry sets, as an association list with one binding per key. -/
abbrev Trie := List (Str × ESet)

/-- `key in trie` (pygtrie `__contains__`): is there a binding for `k`? -/
def Trie.hasBinding (t : Trie) (k : Str) : Bool :=
  t.any (fun p => p.1 = k)

/-- `trie.prefixes(req)`: the bindings whose key is a string prefix of
`req` (pygtrie yields them walking down the trie; the segmentation code
only consumes them in order-insensitive ways). -/
def Trie.prefixBindings (t : Trie) (req : Str) : Trie :=
  t.filter (fun p => p.1.isPrefixOf req)

/-- All stored entries, in store order: `itertools.chain.from_iterable
(self._entries.values())`, the body of `Model.__iter__`
(`src/pymor/obj.py` lines 257-261) and `Dictionary.__iter__`. -/
def Trie.allEntries (t : Trie) : List Entry :=
  (t.map (fun p => p.2)).flatten

/-- The stored-entry set of a lexicon (order-insensitive view). -/
def Trie.entryFinset (t : Trie) : Finset Entry :=
  t.allEntries.toFinset

namespace Model

/-- `Model._add` (`src/pymor/obj.py` lines 287-295; `Dictionary._add` in
`src/pymor.py` lines 61-69 is textually identical): if `entry.phon` has no
binding, bind it to the singleton set; otherwise add the entry to the
existing set at that key.  No validation of any kind is performed. -/
def _add : Trie → Entry → Trie
  | [], e => [(e.phon, [e])]
  | p :: t, e =>
    if p.1 = e.phon then (p.1, ESet.addE p.2 e) :: t
    else p :: _add t e

/-- `Model.add_raw_batch` / the loop in `Dictionary.batchadd`: `_add` each
entry in order. -/
def add_raw_batch (t : Trie) (es : List Entry) : Trie :=
  es.foldl _add t

/-- `Model.delete` (`src/pymor/obj.py` lines 342-363; `Dictionary.delete`
is identical at the store level): if `entry.phon` has a binding, discard
the entry from its set (the binding remains, possibly with an empty set);
otherwise do nothing. -/
def delete : Trie → Entry → Trie
  | [], _ => []
  | p :: t, e =>
    if p.1 = e.phon then (p.1, ESet.discard p.2 e) :: t
    else p :: delete t e

/-- `Model.__len__` (`src/pymor/obj.py` lines 263-265): `len(self._entries)`,
the number of keys carrying a value in the pygtrie — the number of
bindings. -/
def modelLen (t : Trie) : Nat :=
  t.length

/-- The quantity the spec ascribes to `size()`: the total stored Entry
count, summing each key's set cardinality. -/
def totalEntryCount (t : Trie) : Nat :=
  (t.map (fun p => p.2.length)).sum

end Model

namespace Model

/-- `Model.tokenize` (`src/pymor/obj.py` lines 365-394), fuel-indexed.
For each binding whose key is a prefix of `req`:
* if the remainder `req[len(prefix):]` is empty, every entry of the
  binding's set contributes the one-element tuple `(entry,)`;
* otherwise every entry paired with every tuple of the recursive call on
  the remainder contributes `(entry,) + subsequents`;
and the contributions are collected into a `frozenset`.

The Python recursion is on the remainder string, which is strictly shorter
than `req` exactly when the matched key is nonempty; with an empty stored
key the Python code does not terminate (it recurses on `req` itself), so
the embedding carries explicit fuel, and every theorem about `tokenize`
assumes no empty key is stored, which makes `req.length + 1` fuel enough
(`Model.tokenizeF_mem_iff` below). -/
def tokenizeF (t : Trie) : Nat → Str → Finset (List Entry)
  | 0, _ => ∅
  | fuel + 1, req =>
    ((t.prefixBindings req).map (fun p =>
      let rem := req.drop p.1.length
      if rem = [] then (p.2.map (fun e => [e])).toFinset
      else (p.2.toFinset ×ˢ tokenizeF t fuel rem).image
        (fun es => es.1 :: es.2))).foldr (· ∪ ·) ∅

/-- `Model.tokenize` at its canonical fuel. -/
def tokenize (t : Trie) (req : Str) : Finset (List Entry) :=
  tokenizeF t (req.length + 1) req

end Model

/-- Concatenation of the `phon` fields of a tuple of entries. -/
def phonConcat (l : List Entry) : Str :=
  (l.map Entry.phon).flatten

namespace Dictionary

/-!
`Dictionary` of `src/pymor.py`.  Its `_add` and `delete` are textually
identical to `Model._add` / `Model.delete` above and are shared.  Its
`modify`, `populate` and `match` are its own and are embedded here.
-/

/-- `Dictionary.modify` (`src/pymor.py` lines 90-106): replace the backing
store by a fresh empty trie, then `add` every member of `func(old_entry)`
for every entry of the old store, in iteration order.  `func` returns a
Python set of entries, determinized as a list. -/
def modify (func : Entry → List Entry) (t : Trie) : Trie :=
  Model.add_raw_batch [] (t.allEntries.flatMap func)

/-- A value flowing into `Dictionary.__init__` / `Dictionary.add`.  Python
is dynamically typed: `Dictionary.populate` (lines 108-116) builds
`Dictionary(name = ..., entries = map(func, iter(self)))`, so the items
reaching `add` are the *sets* `func(e)`, not entries. -/
inductive PyItem where
  | entry (e : Entry)
  | entrySet (s : List Entry)
deriving DecidableEq

/-- `Dictionary._add` applied to a dynamically-typed item: it evaluates
`entry.phon`, which raises `AttributeError` when the item is a set rather
than an `Entry`, before touching the store. -/
def addItem (t : Trie) (item : PyItem) : Except PyErr Trie :=
  match item with
  | .entry e => .ok (Model._add t e)
  | .entrySet _ => .error .attributeError

/-- `Dictionary.__init__` (`src/pymor.py` lines 44-50): `add` each item of
the `entries` iterable in order; the first raising item aborts. -/
def initItems (items : List PyItem) : Except PyErr Trie :=
  items.foldlM addItem []

/-- `Dictionary.populate` (`src/pymor.py` lines 108-116): construct a new
`Dictionary` from `map(func, iter(self))` — an iterable whose items are
the entry *sets* `func(e)` (the flattening step is absent in the source). -/
def populate (func : Entry → List Entry) (t : Trie) : Except PyErr Trie :=
  initItems (t.allEntries.map (fun e => PyItem.entrySet (func e)))

/-- `Dictionary.match` (`src/pymor.py` lines 118-154), the value yielded by
consuming a *fresh* (uncached) call, fuel-indexed like `Model.tokenizeF`.

Faithful to two source facts:
* the result is a lazily chained sequence (duplicates preserved, modelled
  as a list; order within follows the store's binding order);
* in the base case the source builds `collections.deque((e, ))` inside a
  generator over `entry in entries` — the bound variable `entry` is
  unused, and the free name `e` resolves to the *module-level* binding
  left by the script's `for e in entries: d.add(e)` loop (the last entry
  of the module's `entries` list).  That module-level entry is the
  `globalE` parameter, and each entry of the matched set contributes the
  sequence `(globalE,)` instead of itself.
The recursive case prepends the genuine `entry` via `merge_product`.
Prefix bindings are enumerated in store order (pygtrie yields them by
increasing key length; the facts proved below evaluate stores in which a
query matches at most one binding, where the two orders coincide). -/
def matchF (globalE : Entry) (t : Trie) : Nat → Str → List (List Entry)
  | 0, _ => []
  | fuel + 1, req =>
    (t.prefixBindings req).flatMap (fun p =>
      let rem := req.drop p.1.length
      if rem = [] then p.2.map (fun _ => [globalE])
      else p.2.flatMap (fun e =>
        (matchF globalE t fuel rem).map (fun s => e :: s)))

/-- A fresh `Dictionary.match` call at canonical fuel. -/
def matchFresh (globalE : Entry) (t : Trie) (req : Str) : List (List Entry) :=
  matchF globalE t (req.length + 1) req

/-- The memoization state of `Dictionary.match`: `functools.lru_cache`
maps each argument to the *chain object* returned for it.  A chain is a
lazy iterator, so what the cache retains after the caller has consumed the
result is an exhausted iterator; the table therefore records, per request,
the residue still consumable from the cached object. -/
structure CacheState where
  entries : Trie
  cache : List (Str × List (List Entry))
deriving DecidableEq

/-- One observed `d.match(req)` call followed by the caller consuming the
returned iterator (as `src/pymor.py` line 185 does), restricted to
requests that are matched entirely by a single key (no recursion, hence no
inner cache traffic — the case the C2 counterexample uses):
* cache miss: the chain is built, cached, and consumed by the caller —
  the caller observes the fresh value, and the cached object is left
  exhausted (residue `[]`);
* cache hit: the very same chain object is returned again — the caller
  observes only its residue, which consuming leaves empty. -/
def matchCall (globalE : Entry) (s : CacheState) (req : Str) :
    List (List Entry) × CacheState :=
  match (s.cache.find? (fun p => p.1 = req)) with
  | some p =>
    (p.2, { s with cache := s.cache.map (fun q => if q.1 = req then (q.1, []) else q) })
  | none => (matchFresh globalE s.entries req,
      { s with cache := s.cache ++ [(req, [])] })

/-- `Dictionary.add` (`src/pymor.py` lines 71-74): `_add`, then
`match.cache_clear()`. -/
def addC (s : CacheState) (e : Entry) : CacheState :=
  { entries := Model._add s.entries e, cache := [] }

/-- `Dictionary.delete` (lines 81-88) at the cached level: discard and
clear the cache when the key has a binding. -/
def deleteC (s : CacheState) (e : Entry) : CacheState :=
  if s.entries.hasBinding e.phon then
    { entries := Model.delete s.entries e, cache := [] }
  else s

end Dictionary

namespace Model

/-- The argument a pygtrie lookup is given: either an actual string, or —
as `Model.has_key` does — the builtin type object `str` itself. -/
inductive KeyArg where
  | strType
  | strVal (s : Str)
deriving DecidableEq

/-- `pygtrie.CharTrie.has_key(arg)`: walks the trie along the characters
of `arg`.  Given an actual string it reports whether that key has a
binding; given the type object `str` (not iterable), the walk raises
`TypeError` before consulting the store. -/
def trieHasKeyArg (t : Trie) (a : KeyArg) : Except PyErr Bool :=
  match a with
  | .strVal s => .ok (t.hasBinding s)
  | .strType => .error .typeError

/-- `Model.has_key` (`src/pymor/obj.py` lines 271-273):
`return self._entries.has_key(str)` — the source passes the builtin type
`str`, not the parameter `key`, so the argument is ignored. -/
def has_key (t : Trie) (key : Str) : Except PyErr Bool :=
  trieHasKeyArg t .strType

end Model

/-!
The structured-document codec (`Entry.to_yaml` / `Entry.from_yaml`,
`src/pymor/obj.py` lines 89-163, and `Model.to_yaml` / `Model.from_yaml`,
lines 398-429).

`Entry.to_yaml` presents `feat` as `dict(node.feat)`: Python iterates the
frozenset in an unspecified order and builds a mapping in which a later
pair silently overwrites an earlier pair with the same key.
`Entry.from_yaml` reads it back as `frozenset(mapping.items())`.  The
iteration order is determinized here by sorting the pairs
lexicographically (`featPairs`); every property proved below is insensitive
to the chosen enumeration order (a duplicated key collapses the mapping
under *any* order, and with pairwise-distinct keys the mapping is the
same under any order).
-/

/-- Lexicographic comparison on feature pairs, used only to determinize
frozenset iteration order. -/
def pairLE (a b : Str × Str) : Prop :=
  a.1 < b.1 ∨ (a.1 = b.1 ∧ a.2 ≤ b.2)

instance : DecidableRel pairLE := fun a b =>
  inferInstanceAs (Decidable (_ ∨ _))

instance : IsTrans (Str × Str) pairLE :=
  ⟨by
    rintro a b c (h1 | ⟨h1, h1'⟩) (h2 | ⟨h2, h2'⟩)
    · exact Or.inl (lt_trans h1 h2)
    · exact Or.inl (h2 ▸ h1)
    · exact Or.inl (h1 ▸ h2)
    · exact Or.inr ⟨h1.trans h2, le_trans h1' h2'⟩⟩

instance : IsAntisymm (Str × Str) pairLE :=
  ⟨by
    rintro ⟨a1, a2⟩ ⟨b1, b2⟩ (h1 | ⟨h1, h1'⟩) (h2 | ⟨h2, h2'⟩)
    · exact absurd h2 (not_lt_of_lt h1)
    · exact absurd h1 (h2 ▸ lt_irrefl b1)
    · exact absurd h2 (h1 ▸ lt_irrefl a1)
    · cases h1; exact congrArg _ (le_antisymm h1' h2')⟩

instance : IsTotal (Str × Str) pairLE :=
  ⟨by
    intro a b
    rcases lt_trichotomy a.1 b.1 with h | h | h
    · exact Or.inl (Or.inl h)
    · rcases le_total a.2 b.2 with h' | h'
      · exact Or.inl (Or.inr ⟨h, h'⟩)
      · exact Or.inr (Or.inr ⟨h.symm, h'⟩)
    · exact Or.inr (Or.inl h)⟩

/-- The determinized enumeration of a `feat` frozenset (an insertion sort
lifted to the underlying multiset; any enumeration order would do for the
properties proved below). -/
def featPairs (s : Finset (Str × Str)) : List (Str × Str) :=
  Quot.liftOn s.val (fun l => l.insertionSort pairLE)
    (fun l₁ l₂ h =>
      List.eq_of_perm_of_sorted
        (((l₁.perm_insertionSort pairLE).trans h).trans
          (l₂.perm_insertionSort pairLE).symm)
        (l₁.sorted_insertionSort pairLE)
        (l₂.sorted_insertionSort pairLE))

/-- One step of Python `dict` construction from a pair: a pair whose key
is already bound overwrites that binding, otherwise it is appended. -/
def dictUpdate : List (Str × Str) → Str × Str → List (Str × Str)
  | [], kv => [kv]
  | q :: d, kv =>
    if q.1 = kv.1 then (q.1, kv.2) :: d
    else q :: dictUpdate d kv

/-- Python `dict(pairs)`: fold the pairs into an initially empty mapping,
later pairs overwriting earlier ones with the same key. -/
def dictOfPairs (xs : List (Str × Str)) : List (Str × Str) :=
  xs.foldl dictUpdate []

/-- `Entry.from_yaml ∘ Entry.to_yaml`: `phon`, `sem`, `gloss` pass through
the document unchanged; `feat` goes through `dict(node.feat)` on the way
out and `frozenset(mapping.items())` on the way back. -/
def Entry.yamlRT (e : Entry) : Entry :=
  { e with feat := (dictOfPairs (featPairs e.feat)).toFinset }

/-- `Model.from_yaml ∘ Model.to_yaml`: `to_yaml` serializes
`{version: 0, content: list(node)}` (full iteration, each entry through
`Entry.to_yaml`); `from_yaml` builds a fresh `Model` and `add_batch`s the
parsed content (the base `Model.populate` is the identity generator, so
`add_batch` is `_add` on each parsed entry in order). -/
def Model.yamlRT (t : Trie) : Trie :=
  Model.add_raw_batch [] (t.allEntries.map Entry.yamlRT)

/-- A `feat` bundle is flat (mapping-like) when no two of its pairs share
a key. -/
def featFlat (e : Entry) : Prop :=
  ∀ a ∈ e.feat, ∀ b ∈ e.feat, a.1 = b.1 → a = b

instance (e : Entry) : Decidable (featFlat e) :=
  inferInstanceAs (Decidable (∀ _ ∈ _, ∀ _ ∈ _, _ → _))

/-- The surface-key invariant of the store (spec §3): every entry found
under key `k` has `entry.phon == k`. -/
def Trie.storeInv (t : Trie) : Prop :=
  ∀ p ∈ t, ∀ e ∈ p.2, e.phon = p.1

instance (t : Trie) : Decidable t.storeInv :=
  inferInstanceAs (Decidable (∀ _ ∈ _, ∀ _ ∈ _, _))

/-- The key-uniqueness invariant of the association-list trie: at most one
binding per surface key (pygtrie guarantees this structurally). -/
def Trie.keysNodup (t : Trie) : Prop :=
  (t.map (fun p => p.1)).Nodup

instance (t : Trie) : Decidable t.keysNodup :=
  inferInstanceAs (Decidable (List.Nodup _))

/-!
Concrete entries and lexicons used by the witnesses and counterexamples:
the `"a"`/`"ab"`/`"b"` lexicon of spec §8, the homophone pair
`ta(past)`/`ta(field)` of `src/pymor.py` lines 157-163, and the module
script's dictionary entries.
-/

/-- `Entry(phon = "a")`. -/
def aE : Entry := ⟨['a'], ∅, "", ""⟩

/-- `Entry(phon = "ab")`. -/
def abE : Entry := ⟨['a', 'b'], ∅, "", ""⟩

/-- `Entry(phon = "b")`. -/
def bE : Entry := ⟨['b'], ∅, "", ""⟩

/-- The lexicon holding entries with phons `"a"`, `"ab"`, `"b"`. -/
def abTrie : Trie := Model.add_raw_batch [] [aE, abE, bE]

/-- `Entry(phon = "ta", sem = "past")` (`src/pymor.py` line 161). -/
def taPast : Entry := ⟨['t', 'a'], ∅, "past", ""⟩

/-- `Entry(phon = "ta", sem = "field")` (`src/pymor.py` line 162) — also
the value left in the module-level name `e` by the script's
`for e in entries: d.add(e)` loop (lines 167-168). -/
def taField : Entry := ⟨['t', 'a'], ∅, "field", ""⟩

/-- The two-homophone lexicon (both entries share the key `"ta"`). -/
def taTrie : Trie := Model.add_raw_batch [] [taPast, taField]

/-- `Entry(phon = "ar")` (`src/pymor.py` line 158). -/
def arE : Entry := ⟨['a', 'r'], ∅, "", ""⟩

/-- A dictionary holding exactly `Entry(phon = "ar")`. -/
def arTrie : Trie := Model._add [] arE

/-- An entry whose `feat` frozenset holds two pairs sharing the key
`"f"` — legal as a frozenset of pairs, not flat as a mapping. -/
def kBad : Entry := ⟨['k'], {(['f'], ['1']), (['f'], ['2'])}, "", ""⟩

/-- The one-entry lexicon holding `kBad`. -/
def kBadTrie : Trie := Model._add [] kBad

/-- `Entry(phon = "")`: the empty-phon entry of claim C4. -/
def epsE : Entry := ⟨[], ∅, "", ""⟩

/-- An entry with a flat (mapping-like) `feat` bundle, for witnesses. -/
def iE : Entry := ⟨['i'], {(['s'], ['N'])}, "", ""⟩

/-- A cached dictionary state holding exactly `Entry(phon = "a")` with an
empty cache, as after `d = Dictionary(name = "test"); d.add(Entry(phon = "a"))`. -/
def aDict : Dictionary.CacheState := ⟨Model._add [] aE, []⟩

/-!
The memoization layer of `Model.tokenize` (`functools.lru_cache` on the
method, cleared by `Model.clear_caches`, which every mutator calls:
`add_raw`, `add_raw_batch`, `add`, `add_batch` lines 297-340, `delete`
lines 342-363).  Unlike `Dictionary.match`, `Model.tokenize` returns
materialized `frozenset`s, so a cached value is immutable.

In Python the recursive calls also go through the cache, caching suffix
sub-results as well; every value the table ever holds is the cache-free
value of its key against the current store (`Model.cacheOK` below), and
the embedding registers the top-level entry, which is what the stated
invariant needs.  LRU eviction only removes entries and so also preserves
the invariant; it is not modelled.
-/

namespace Model

/-- A `Model` with its memoization table. -/
structure MCache where
  entries : Trie
  cache : List (Str × Finset (List Entry))
deriving DecidableEq

/-- One observed `m.tokenize(req)` call: a hit returns the cached
frozenset unchanged, a miss computes the value against the store and
records it. -/
def tokenizeCall (s : MCache) (req : Str) : Finset (List Entry) × MCache :=
  match s.cache.find? (fun p => p.1 = req) with
  | some p => (p.2, s)
  | none =>
    (Model.tokenize s.entries req,
     { s with cache := s.cache ++ [(req, Model.tokenize s.entries req)] })

/-- An operation on a `Model`, as issued by callers. -/
inductive MOp where
  | insert (e : Entry)
  | insertBatch (es : List Entry)
  | del (e : Entry)
  | query (req : Str)
deriving DecidableEq

/-- Apply one operation: every mutator ends in `clear_caches()` (an
unconditional full clear for insertion; `delete` clears only when the key
had a binding, and otherwise touches nothing); a query only updates the
cache. -/
def applyOp (s : MCache) : MOp → MCache
  | .insert e => ⟨Model._add s.entries e, []⟩
  | .insertBatch es => ⟨Model.add_raw_batch s.entries es, []⟩
  | .del e =>
    if Trie.hasBinding s.entries e.phon then ⟨Model.delete s.entries e, []⟩ else s
  | .query req => (tokenizeCall s req).2

/-- Run a sequence of operations from a given state. -/
def runOps (s : MCache) (ops : List MOp) : MCache :=
  ops.foldl applyOp s

/-- Every cached result is the cache-free evaluation of its query against
the current store. -/
def cacheOK (s : MCache) : Prop :=
  ∀ p ∈ s.cache, p.2 = Model.tokenize s.entries p.1

end Model

/-! ### Store lemmas -/

theorem ESet.mem_addE_self (s : ESet) (e : Entry) : e ∈ ESet.addE s e := by
  unfold ESet.addE
  split
  · assumption
  · simp

theorem ESet.mem_or_eq_of_mem_addE {s : ESet} {e e' : Entry}
    (h : e' ∈ ESet.addE s e) : e' ∈ s ∨ e' = e := by
  unfold ESet.addE at h
  split at h
  · exact Or.inl h
  · simpa using h

theorem ESet.toFinset_addE (s : ESet) (e : Entry) :
    (ESet.addE s e).toFinset = insert e s.toFinset := by
  unfold ESet.addE
  split
  · next h => rw [Finset.insert_eq_self.mpr (List.mem_toFinset.mpr h)]
  · simp [List.toFinset_append, Finset.insert_eq, Finset.union_comm]

@[simp]
theorem Trie.allEntries_nil : Trie.allEntries [] = [] := rfl

@[simp]
theorem Trie.allEntries_cons (p : Str × ESet) (t : Trie) :
    Trie.allEntries (p :: t) = p.2 ++ t.allEntries := by
  simp [Trie.allEntries]

theorem Trie.mem_allEntries {t : Trie} {e : Entry} :
    e ∈ t.allEntries ↔ ∃ p ∈ t, e ∈ p.2 := by
  simp only [Trie.allEntries, List.mem_flatten, List.mem_map]
  constructor
  · rintro ⟨l, ⟨p, hp, rfl⟩, he⟩
    exact ⟨p, hp, he⟩
  · rintro ⟨p, hp, he⟩
    exact ⟨p.2, ⟨p, hp, rfl⟩, he⟩

theorem Trie.entryFinset_add (t : Trie) (e : Entry) :
    (Model._add t e).entryFinset = insert e t.entryFinset := by
  induction t with
  | nil => simp [Model._add, Trie.entryFinset]
  | cons p t ih =>
    unfold Model._add
    split
    · simp [Trie.entryFinset, List.toFinset_append, ESet.toFinset_addE,
        Finset.insert_union]
    · have ih' := ih
      simp only [Trie.entryFinset, Trie.allEntries_cons, List.toFinset_append] at ih' ⊢
      rw [ih', Finset.union_insert]

theorem Trie.entryFinset_batch (t : Trie) (es : List Entry) :
    (Model.add_raw_batch t es).entryFinset = t.entryFinset ∪ es.toFinset := by
  induction es generalizing t with
  | nil => simp [Model.add_raw_batch, Trie.entryFinset]
  | cons x es ih =>
    show (Model.add_raw_batch (Model._add t x) es).entryFinset = _
    rw [ih, Trie.entryFinset_add]
    simp [Finset.insert_union, Finset.union_insert]

theorem Trie.entryFinset_rebuild (l : List Entry) :
    (Model.add_raw_batch [] l).entryFinset = l.toFinset := by
  rw [Trie.entryFinset_batch]
  simp [Trie.entryFinset]

theorem Trie.mem_add_self (t : Trie) (e : Entry) :
    e ∈ (Model._add t e).allEntries := by
  induction t with
  | nil => simp [Model._add, Trie.allEntries]
  | cons p t ih =>
    unfold Model._add
    split
    · simpa using Or.inl (ESet.mem_addE_self p.2 e)
    · simpa using Or.inr ih

/-! ### Invariant lemmas -/

theorem Trie.storeInv_nil : Trie.storeInv [] := by
  intro p hp
  cases hp

theorem Trie.storeInv_add {t : Trie} (h : t.storeInv) (e : Entry) :
    (Model._add t e).storeInv := by
  induction t with
  | nil =>
    intro p hp e' he'
    simp only [Model._add, List.mem_singleton] at hp
    subst hp
    simp only [List.mem_singleton] at he'
    subst he'
    rfl
  | cons q t ih =>
    have hq : ∀ e' ∈ q.2, e'.phon = q.1 := h q (List.mem_cons_self q t)
    have ht : Trie.storeInv t := fun p hp => h p (List.mem_cons_of_mem q hp)
    unfold Model._add
    split
    · next heq =>
      intro p hp e' he'
      rcases List.mem_cons.mp hp with hp | hp
      · subst hp
        rcases ESet.mem_or_eq_of_mem_addE he' with h' | h'
        · exact hq e' h'
        · simp [h', heq]
      · exact ht p hp e' he'
    · intro p hp e' he'
      rcases List.mem_cons.mp hp with hp | hp
      · subst hp; exact hq e' he'
      · exact ih ht p hp e' he'

theorem Trie.storeInv_batch {t : Trie} (h : t.storeInv) (es : List Entry) :
    (Model.add_raw_batch t es).storeInv := by
  induction es generalizing t with
  | nil => exact h
  | cons x es ih => exact ih (Trie.storeInv_add h x)

theorem Trie.storeInv_delete {t : Trie} (h : t.storeInv) (e : Entry) :
    (Model.delete t e).storeInv := by
  induction t with
  | nil => exact h
  | cons q t ih =>
    have hq : ∀ e' ∈ q.2, e'.phon = q.1 := h q (List.mem_cons_self q t)
    have ht : Trie.storeInv t := fun p hp => h p (List.mem_cons_of_mem q hp)
    unfold Model.delete
    split
    · intro p hp e' he'
      rcases List.mem_cons.mp hp with hp | hp
      · subst hp
        exact hq e' (List.mem_of_mem_erase he')
      · exact ht p hp e' he'
    · intro p hp e' he'
      rcases List.mem_cons.mp hp with hp | hp
      · subst hp; exact hq e' he'
      · exact ih ht p hp e' he'

theorem Trie.storeInv_modify (func : Entry → List Entry) (t : Trie) :
    (Dictionary.modify func t).storeInv :=
  Trie.storeInv_batch Trie.storeInv_nil _

theorem Trie.mem_keys_add {t : Trie} {e : Entry} {k : Str} :
    k ∈ (Model._add t e).map (fun p => p.1) ↔
      k ∈ t.map (fun p => p.1) ∨ k = e.phon := by
  induction t with
  | nil => simp [Model._add]
  | cons p t ih =>
    unfold Model._add
    split
    · next heq => simp [heq]; tauto
    · simp only [List.map_cons, List.mem_cons, ih]; tauto

theorem Trie.keysNodup_nil : Trie.keysNodup [] := List.nodup_nil

theorem Trie.keysNodup_add {t : Trie} (h : Trie.keysNodup t) (e : Entry) :
    Trie.keysNodup (Model._add t e) := by
  induction t with
  | nil => simp [Model._add, Trie.keysNodup]
  | cons p t ih =>
    have hp : p.1 ∉ t.map (fun q => q.1) := (List.nodup_cons.mp h).1
    have ht : Trie.keysNodup t := (List.nodup_cons.mp h).2
    unfold Model._add
    split
    · exact h
    · next hne =>
      refine List.nodup_cons.mpr ⟨?_, ih ht⟩
      rw [Trie.mem_keys_add]
      rintro (hc | hc)
      · exact hp hc
      · exact hne (show p.1 = e.phon from hc)

theorem Trie.keysNodup_batch {t : Trie} (h : Trie.keysNodup t) (es : List Entry) :
    Trie.keysNodup (Model.add_raw_batch t es) := by
  induction es generalizing t with
  | nil => exact h
  | cons x es ih => exact ih (Trie.keysNodup_add h x)

/-! ### Correctness of the segmentation engine (`Model.tokenize`)

The spec §4.3 definition: the result is the set of all finite sequences
`(e1, ..., en)`, `n ≥ 1`, of stored entries whose concatenated phons equal
the query.  This holds of `Model.tokenize` for every store satisfying the
surface-key invariant and storing no empty key. -/

theorem mem_foldr_union {α β : Type} [DecidableEq β]
    (f : α → Finset β) (L : List α) (b : β) :
    b ∈ (L.map f).foldr (· ∪ ·) ∅ ↔ ∃ a ∈ L, b ∈ f a := by
  induction L with
  | nil => simp
  | cons x L ih => simp [ih]

@[simp]
theorem phonConcat_nil : phonConcat [] = [] := rfl

@[simp]
theorem phonConcat_cons (e : Entry) (s : List Entry) :
    phonConcat (e :: s) = e.phon ++ phonConcat s := by
  simp [phonConcat]

theorem Model.tokenizeF_succ (t : Trie) (fuel : Nat) (req : Str) :
    Model.tokenizeF t (fuel + 1) req =
      ((Trie.prefixBindings t req).map (fun p =>
        if req.drop p.1.length = [] then (p.2.map (fun e => [e])).toFinset
        else (p.2.toFinset ×ˢ Model.tokenizeF t fuel (req.drop p.1.length)).image
          (fun es => es.1 :: es.2))).foldr (· ∪ ·) ∅ :=
  rfl

theorem Model.tokenizeF_mem_iff (t : Trie) (hinv : Trie.storeInv t)
    (hne : ∀ p ∈ t, p.1 ≠ ([] : Str)) :
    ∀ (fuel : Nat) (req : Str), req.length < fuel →
      ∀ l : List Entry,
        l ∈ Model.tokenizeF t fuel req ↔
          l ≠ [] ∧ (∀ e ∈ l, e ∈ Trie.allEntries t) ∧ phonConcat l = req := by
  intro fuel
  induction fuel with
  | zero => intro req hlen; omega
  | succ fuel ih =>
    intro req hlen l
    rw [Model.tokenizeF_succ, mem_foldr_union]
    constructor
    · rintro ⟨p, hp, hl⟩
      unfold Trie.prefixBindings at hp
      have hpf := List.mem_filter.mp hp
      have hpt : p ∈ t := hpf.1
      have hpre : p.1 <+: req :=
        List.isPrefixOf_iff_prefix.mp (by simpa using hpf.2)
      have hreq : p.1 ++ req.drop p.1.length = req :=
        List.prefix_iff_eq_append.mp hpre
      by_cases hrem : req.drop p.1.length = []
      · rw [if_pos hrem] at hl
        rw [List.mem_toFinset, List.mem_map] at hl
        obtain ⟨e, he, rfl⟩ := hl
        refine ⟨by simp, ?_, ?_⟩
        · intro e' he'
          rw [List.mem_singleton] at he'
          subst he'
          exact Trie.mem_allEntries.mpr ⟨p, hpt, he⟩
        · rw [hrem] at hreq
          simp [hinv p hpt e he, hreq]
      · rw [if_neg hrem] at hl
        rw [Finset.mem_image] at hl
        obtain ⟨⟨e, s⟩, hes, rfl⟩ := hl
        rw [Finset.mem_product] at hes
        have he : e ∈ p.2 := List.mem_toFinset.mp hes.1
        have hlt : (req.drop p.1.length).length < fuel := by
          have h1 : p.1 ≠ [] := hne p hpt
          have h2 : 0 < p.1.length := List.length_pos.mpr h1
          have h3 : req.length = p.1.length + (req.drop p.1.length).length := by
            conv_lhs => rw [← hreq]
            simp
          omega
        obtain ⟨hs1, hs2, hs3⟩ := (ih _ hlt s).mp hes.2
        refine ⟨by simp, ?_, ?_⟩
        · intro e' he'
          rcases List.mem_cons.mp he' with rfl | he'
          · exact Trie.mem_allEntries.mpr ⟨p, hpt, he⟩
          · exact hs2 e' he'
        · rw [phonConcat_cons, hs3, hinv p hpt e he, hreq]
    · rintro ⟨hl, hstored, hcat⟩
      obtain ⟨e, s, rfl⟩ : ∃ e s, l = e :: s := by
        cases l with
        | nil => exact absurd rfl hl
        | cons e s => exact ⟨e, s, rfl⟩
      obtain ⟨p, hpt, hep⟩ :=
        Trie.mem_allEntries.mp (hstored e (List.mem_cons_self e s))
      have hphon : e.phon = p.1 := hinv p hpt e hep
      have hreq : req = p.1 ++ phonConcat s := by
        rw [← hcat, phonConcat_cons, hphon]
      have hpre : p.1.isPrefixOf req = true := by
        rw [List.isPrefixOf_iff_prefix, hreq]
        exact List.prefix_append p.1 (phonConcat s)
      have hmem : p ∈ Trie.prefixBindings t req :=
        List.mem_filter.mpr ⟨hpt, hpre⟩
      have hdrop : req.drop p.1.length = phonConcat s := by
        rw [hreq, List.drop_left]
      refine ⟨p, hmem, ?_⟩
      by_cases hs : s = []
      · subst hs
        rw [hdrop]
        rw [if_pos (by simp)]
        rw [List.mem_toFinset, List.mem_map]
        exact ⟨e, hep, rfl⟩
      · have hsne : phonConcat s ≠ [] := by
          obtain ⟨e', s', rfl⟩ : ∃ e' s', s = e' :: s' := by
            cases s with
            | nil => exact absurd rfl hs
            | cons e' s' => exact ⟨e', s', rfl⟩
          obtain ⟨p', hpt', hep'⟩ := Trie.mem_allEntries.mp
            (hstored e' (List.mem_cons_of_mem e (List.mem_cons_self e' s')))
          have hph' : e'.phon = p'.1 := hinv p' hpt' e' hep'
          simp only [phonConcat_cons]
          intro hc
          exact hne p' hpt' (hph' ▸ (List.append_eq_nil.mp hc).1)
        have hlt : (phonConcat s).length < fuel := by
          have h2 : 0 < p.1.length := List.length_pos.mpr (hne p hpt)
          have h3 : req.length = p.1.length + (phonConcat s).length := by
            conv_lhs => rw [hreq]
            simp
          omega
        rw [hdrop, if_neg hsne, Finset.mem_image]
        refine ⟨(e, s), ?_, rfl⟩
        rw [Finset.mem_product]
        refine ⟨List.mem_toFinset.mpr hep, (ih _ hlt s).mpr ?_⟩
        exact ⟨hs, fun e' he' => hstored e' (List.mem_cons_of_mem e he'), rfl⟩

/-- Correctness of `Model.tokenize` against spec §4.3: on a store
satisfying the surface-key invariant and holding no empty key, a sequence
is in `tokenize(req)` exactly when it is a nonempty sequence of stored
entries whose concatenated phons equal `req`. -/
theorem Model.tokenize_mem_iff (t : Trie) (hinv : Trie.storeInv t)
    (hne : ∀ p ∈ t, p.1 ≠ ([] : Str)) (req : Str) (l : List Entry) :
    l ∈ Model.tokenize t req ↔
      l ≠ [] ∧ (∀ e ∈ l, e ∈ Trie.allEntries t) ∧ phonConcat l = req :=
  Model.tokenizeF_mem_iff t hinv hne (req.length + 1) req (Nat.lt_succ_self _) l

theorem featPairs_perm (s : Finset (Str × Str)) :
    (featPairs s : Multiset (Str × Str)) = s.val := by
  rcases s with ⟨m, hm⟩
  induction m using Quotient.inductionOn with
  | h l => exact Quot.sound (l.perm_insertionSort pairLE)

theorem featPairs_nodup (s : Finset (Str × Str)) : (featPairs s).Nodup := by
  have h := s.nodup
  rw [← featPairs_perm s] at h
  exact h

theorem featPairs_toFinset (s : Finset (Str × Str)) : (featPairs s).toFinset = s := by
  ext a
  rw [List.mem_toFinset, ← Multiset.mem_coe, featPairs_perm]
  rfl

theorem mem_featPairs {s : Finset (Str × Str)} {a : Str × Str} :
    a ∈ featPairs s ↔ a ∈ s := by
  rw [← Multiset.mem_coe, featPairs_perm]
  rfl

theorem dictUpdate_of_newKey {d : List (Str × Str)} {kv : Str × Str}
    (h : kv.1 ∉ d.map Prod.fst) : dictUpdate d kv = d ++ [kv] := by
  induction d with
  | nil => rfl
  | cons q d ih =>
    simp only [List.map_cons, List.mem_cons] at h
    push_neg at h
    unfold dictUpdate
    rw [if_neg (fun hc => h.1 hc.symm), ih h.2]
    rfl

theorem foldl_dictUpdate_of_nodupKeys (xs : List (Str × Str)) :
    ∀ acc : List (Str × Str), ((acc ++ xs).map Prod.fst).Nodup →
      xs.foldl dictUpdate acc = acc ++ xs := by
  induction xs with
  | nil => intro acc _; simp
  | cons x xs ih =>
    intro acc h
    have hstep : dictUpdate acc x = acc ++ [x] := by
      apply dictUpdate_of_newKey
      intro hc
      rw [List.map_append, List.map_cons] at h
      have hd := (List.nodup_append.mp h).2.2
      exact hd hc (List.mem_cons_self x.1 _)
    show xs.foldl dictUpdate (dictUpdate acc x) = acc ++ x :: xs
    rw [hstep, ih (acc ++ [x]) (by rwa [← List.append_cons]), ← List.append_cons]

theorem dictOfPairs_of_nodupKeys {xs : List (Str × Str)}
    (h : (xs.map Prod.fst).Nodup) : dictOfPairs xs = xs :=
  foldl_dictUpdate_of_nodupKeys xs [] h

theorem featFlat_keysNodup {e : Entry} (h : featFlat e) :
    ((featPairs e.feat).map Prod.fst).Nodup :=
  (featPairs_nodup e.feat).map_on
    (fun x hx y hy hxy =>
      h x (mem_featPairs.mp hx) y (mem_featPairs.mp hy) hxy)

theorem Entry.yamlRT_eq_self {e : Entry} (h : featFlat e) :
    Entry.yamlRT e = e := by
  unfold Entry.yamlRT
  rw [dictOfPairs_of_nodupKeys (featFlat_keysNodup h), featPairs_toFinset]

/-! ### Cache invisibility for `Model` -/

theorem Model.tokenizeCall_fst {s : Model.MCache} (h : Model.cacheOK s) (req : Str) :
    (Model.tokenizeCall s req).1 = Model.tokenize s.entries req := by
  unfold Model.tokenizeCall
  cases hf : s.cache.find? (fun p => p.1 = req) with
  | none => rfl
  | some p =>
    have hmem := List.mem_of_find?_eq_some hf
    have hkey : p.1 = req := by simpa using List.find?_some hf
    simp [h p hmem, hkey]

theorem Model.cacheOK_tokenizeCall {s : Model.MCache} (h : Model.cacheOK s)
    (req : Str) : Model.cacheOK (Model.tokenizeCall s req).2 := by
  unfold Model.tokenizeCall
  cases hf : s.cache.find? (fun p => p.1 = req) with
  | none =>
    intro p hp
    rcases List.mem_append.mp hp with hp | hp
    · exact h p hp
    · rw [List.mem_singleton] at hp
      subst hp
      rfl
  | some p => exact h

theorem Model.cacheOK_applyOp {s : Model.MCache} (h : Model.cacheOK s)
    (op : Model.MOp) : Model.cacheOK (Model.applyOp s op) := by
  cases op with
  | insert e =>
    intro p hp
    exact absurd hp (List.not_mem_nil p)
  | insertBatch es =>
    intro p hp
    exact absurd hp (List.not_mem_nil p)
  | del e =>
    simp only [Model.applyOp]
    split
    · intro p hp
      exact absurd hp (List.not_mem_nil p)
    · exact h
  | query req => exact Model.cacheOK_tokenizeCall h req

theorem Model.cacheOK_runOps {s : Model.MCache} (h : Model.cacheOK s)
    (ops : List Model.MOp) : Model.cacheOK (Model.runOps s ops) := by
  induction ops generalizing s with
  | nil => exact h
  | cons op ops ih => exact ih (Model.cacheOK_applyOp h op)

/-- The `Model` cache is semantically invisible: starting from any store
with a fresh cache, after any sequence of insertions, bulk insertions,
deletions and queries, a query observes exactly the cache-free evaluation
of the current store. -/
theorem Model.cache_invisible (t : Trie) (ops : List Model.MOp) (req : Str) :
    (Model.tokenizeCall (Model.runOps ⟨t, []⟩ ops) req).1 =
      Model.tokenize (Model.runOps ⟨t, []⟩ ops).entries req :=
  Model.tokenizeCall_fst
    (Model.cacheOK_runOps (fun p hp => absurd hp (List.not_mem_nil p)) ops) req

/-! ### Claim theorems -/

/-- C1 (code bug in `Dictionary.match`): on the `"a"`/`"ab"`/`"b"` lexicon
`Model.tokenize` does return exactly the two decompositions of `"ab"` the
claim demands, but `Dictionary.match` in `src/pymor.py` violates the
claim: its base case builds `deque((e, ))` from the module-level name `e`
(the comprehension variable `entry` is unused), so on a dictionary holding
exactly `Entry(phon = "ar")` a fresh `match("ar")` yields the single
sequence `(Entry(phon = "ta", sem = "field"),)`, whose concatenated phons
are `"ta"`, not the query `"ar"`. -/
theorem claim_C1 :
    Model.tokenize abTrie ['a', 'b'] = {[abE], [aE, bE]} ∧
    Model.tokenize abTrie ['a', 'c'] = ∅ ∧
    Dictionary.matchFresh taField arTrie ['a', 'r'] = [[taField]] ∧
    phonConcat [taField] ≠ ['a', 'r'] := by
  decide

/-- C2 (code bug in `Dictionary.match`): the cache is not semantically
invisible in `src/pymor.py` — `lru_cache` memoizes the lazy chain object,
so on an unchanged one-entry dictionary the first consumed `match("a")`
call yields one segmentation while the second call receives the already
exhausted iterator and yields none. -/
theorem claim_C2 :
    (Dictionary.matchCall taField aDict ['a']).1 = [[taField]] ∧
    (Dictionary.matchCall taField (Dictionary.matchCall taField aDict ['a']).2 ['a']).1
      = [] ∧
    (Dictionary.matchCall taField aDict ['a']).1 ≠
      (Dictionary.matchCall taField (Dictionary.matchCall taField aDict ['a']).2 ['a']).1 := by
  decide

/-- C3, counterexample: the two homophone `"ta"` entries contribute `1`,
not `2`, to `Model.__len__` — `len(self._entries)` counts trie keys, not
stored entries. -/
theorem claim_C3_counterexample :
    Model.modelLen taTrie = 1 ∧ Model.totalEntryCount taTrie = 2 ∧
    Model.modelLen taTrie ≠ Model.totalEntryCount taTrie := by
  decide

/-- C3, amended: `Model.__len__` returns the number of distinct
surface-string keys of the store (each key counted once however many
homophones share it). -/
theorem claim_C3 (t : Trie) (h : Trie.keysNodup t) :
    Model.modelLen t = (t.map (fun p => p.1)).toFinset.card := by
  unfold Model.modelLen
  rw [List.toFinset_card_of_nodup h, List.length_map]

/-- C3 witness: the amended statement at the homophone lexicon. -/
theorem claim_C3_witness :
    Trie.keysNodup taTrie ∧
    Model.modelLen taTrie = (taTrie.map (fun p => p.1)).toFinset.card :=
  ⟨by decide, claim_C3 taTrie (by decide)⟩

/-- C4, counterexample: inserting `Entry(phon = "")` is a total operation
that raises nothing — the entry is stored under the empty key, and it does
reach the segmentation engine: `tokenize("")` then returns the sequence
`(Entry(phon = ""),)`. -/
theorem claim_C4_counterexample :
    epsE ∈ Trie.allEntries (Model._add [] epsE) ∧
    Model.tokenize (Model._add [] epsE) [] = {[epsE]} := by
  decide

/-- C4, amended: insertion performs no validation at all — every entry,
the empty-phon entry included, is accepted and stored. -/
theorem claim_C4 (t : Trie) (e : Entry) :
    e ∈ Trie.allEntries (Model._add t e) :=
  Trie.mem_add_self t e

/-- C5 (code bug in `Dictionary.populate`): the source builds
`Dictionary(name = ..., entries = map(func, iter(self)))` without
flattening, so each item handed to `add` is the Python *set* `func(e)`;
evaluating `entry.phon` on a set raises `AttributeError`, and no derived
lexicon is ever produced (here on a one-entry dictionary with the identity
transform). -/
theorem claim_C5 :
    Dictionary.populate (fun e => [e]) arTrie = Except.error PyErr.attributeError :=
  rfl

/-- C6 (confirmed): `Dictionary.modify` with the identity transform
(every entry mapped to its singleton set) rebuilds a store with exactly
the same entry set. -/
theorem claim_C6 (t : Trie) :
    Trie.entryFinset (Dictionary.modify (fun e => [e]) t) = Trie.entryFinset t := by
  unfold Dictionary.modify
  rw [Trie.entryFinset_rebuild]
  simp [Trie.entryFinset]

/-- C7, counterexample: an entry whose `feat` frozenset holds the pairs
`("f","1")` and `("f","2")` does not survive the document codec —
`dict(node.feat)` collapses the duplicated key, so deserializing the
serialized one-entry lexicon yields a different entry set. -/
theorem claim_C7_counterexample :
    Trie.entryFinset (Model.yamlRT kBadTrie) ≠ Trie.entryFinset kBadTrie := by
  decide

/-- C7, amended: serializing and deserializing preserves the entry set
(order-independently, for any number of entries including zero) provided
every stored entry's `feat` is flat as a mapping, i.e. no two of its pairs
share a key. -/
theorem claim_C7 (t : Trie) (h : ∀ e ∈ Trie.allEntries t, featFlat e) :
    Trie.entryFinset (Model.yamlRT t) = Trie.entryFinset t := by
  unfold Model.yamlRT
  rw [Trie.entryFinset_rebuild,
    List.map_congr_left (fun e he => Entry.yamlRT_eq_self (h e he))]
  simp [Trie.entryFinset]

/-- C7 witness: the round trip at a two-entry lexicon with flat feature
bundles (one nonempty). -/
theorem claim_C7_witness :
    (∀ e ∈ Trie.allEntries (Model.add_raw_batch [] [iE, taPast]), featFlat e) ∧
    Trie.entryFinset (Model.yamlRT (Model.add_raw_batch [] [iE, taPast])) =
      Trie.entryFinset (Model.add_raw_batch [] [iE, taPast]) :=
  ⟨by decide, claim_C7 (Model.add_raw_batch [] [iE, taPast]) (by decide)⟩

/-- C8 (confirmed): the surface-key invariant — every entry found under
key `k` has `phon = k` — holds for the empty store and is preserved by
insertion, bulk insertion, deletion and rewrite. -/
theorem claim_C8 :
    Trie.storeInv [] ∧
    (∀ (t : Trie) (e : Entry), Trie.storeInv t → Trie.storeInv (Model._add t e)) ∧
    (∀ (t : Trie) (es : List Entry),
      Trie.storeInv t → Trie.storeInv (Model.add_raw_batch t es)) ∧
    (∀ (t : Trie) (e : Entry), Trie.storeInv t → Trie.storeInv (Model.delete t e)) ∧
    (∀ (func : Entry → List Entry) (t : Trie),
      Trie.storeInv (Dictionary.modify func t)) :=
  ⟨Trie.storeInv_nil,
   fun _ e h => Trie.storeInv_add h e,
   fun _ es h => Trie.storeInv_batch h es,
   fun _ e h => Trie.storeInv_delete h e,
   Trie.storeInv_modify⟩

/-- C8 witness: the preservation statements at the homophone lexicon. -/
theorem claim_C8_witness :
    Trie.storeInv taTrie ∧ Trie.storeInv (Model._add taTrie aE) ∧
    Trie.storeInv (Model.delete taTrie taPast) ∧
    Trie.storeInv (Dictionary.modify (fun e => [e]) taTrie) :=
  ⟨by decide,
   claim_C8.2.1 taTrie aE (by decide),
   claim_C8.2.2.2.1 taTrie taPast (by decide),
   claim_C8.2.2.2.2 (fun e => [e]) taTrie⟩

/-- C9 (confirmed): `Model.has_key` passes the builtin type object `str`
to the trie instead of its `key` parameter, so its outcome is the same for
every argument, and it never answers `True` for a stored key. -/
theorem claim_C9 :
    (∀ (t : Trie) (k₁ k₂ : Str), Model.has_key t k₁ = Model.has_key t k₂) ∧
    (∀ (t : Trie) (k : Str),
      Trie.hasBinding t k = true → Model.has_key t k ≠ Except.ok true) := by
  constructor
  · intro t k₁ k₂
    rfl
  · intro t k h
    simp [Model.has_key, Model.trieHasKeyArg]

/-- C9 witness: `"ar"` is a stored key of `arTrie`, and `has_key` still
does not answer `True` on it. -/
theorem claim_C9_witness :
    Trie.hasBinding arTrie ['a', 'r'] = true ∧
    Model.has_key arTrie ['a', 'r'] ≠ Except.ok true :=
  ⟨by decide, claim_C9.2 arTrie ['a', 'r'] (by decide)⟩

/-- C10 (confirmed): when the empty string is not a stored key, the empty
query matches no stored prefix, so `tokenize("")` returns the empty set —
the empty sequence is never produced. -/
theorem claim_C10 (t : Trie) (h : Trie.hasBinding t [] = false) :
    Model.tokenize t [] = ∅ := by
  have hp : Trie.prefixBindings t [] = [] := by
    rw [Trie.prefixBindings, List.filter_eq_nil_iff]
    intro p hm hpre
    have hk : p.1 = [] := List.prefix_nil.mp (List.isPrefixOf_iff_prefix.mp hpre)
    have h' := List.any_eq_false.mp h p hm
    simp [hk] at h'
  show Model.tokenizeF t 1 [] = ∅
  unfold Model.tokenizeF
  rw [hp]
  rfl

/-- C10 witness: the `"a"`/`"ab"`/`"b"` lexicon stores no empty key, and
the empty query returns the empty set. -/
theorem claim_C10_witness :
    Trie.hasBinding abTrie [] = false ∧ Model.tokenize abTrie [] = ∅ :=
  ⟨by decide, claim_C10 abTrie (by decide)⟩
